import Mathlib

/-!
Verification of the Vigenère cipher cracker (`vigenere_cracker.py`).

The Python source is shallowly embedded: Python `str` values become
`List Char`, Python `int` becomes `Int` (its `%` on a positive modulus is
`Int.emod`, which agrees with Python's `%`), and the floating point
statistics become exact rationals `ℚ` (the source computes integer
numerators and denominators and performs single divisions, which we model
exactly).  Fallible list indexing is modelled with `List.getD`; every use
below is proved in bounds wherever a claim depends on it.
-/

/-- `ALPHABET = 'абвгдеёжзийклмнопрстуфхцчшщъыьэюя'` (line 13). -/
def ALPHABET : List Char := "абвгдеёжзийклмнопрстуфхцчшщъыьэюя".toList

/-- `ALPHABET_LENGTH = len(ALPHABET)` (line 14). -/
def ALPHABET_LENGTH : Nat := ALPHABET.length

/-- Models Python `str.lower` on single characters, faithfully on the
Cyrillic block that can reach `ALPHABET` ('А'..'Я' and 'Ё'); every other
character is left unchanged (such characters are filtered out by
`clean_text` no matter how they case-fold). -/
def py_lower (c : Char) : Char :=
  if 'А' ≤ c ∧ c ≤ 'Я' then Char.ofNat (c.toNat + 32)
  else if c = 'Ё' then 'ё' else c

/-- `clean_text` (lines 27-29): lowercase, then keep only alphabet letters. -/
def clean_text (text : List Char) : List Char :=
  (text.map py_lower).filter (fun c => decide (c ∈ ALPHABET))

/-- The distinct characters of `text` in order of first occurrence: the key
order of the Python `defaultdict` built in `count_letter_frequencies`. -/
def firstOccs : List Char → List Char
  | [] => []
  | x :: xs => x :: (firstOccs xs).filter (fun c => decide (c ≠ x))

/-- Insert into a count-descending list, after every entry of count ≥ the
inserted count: the placement a stable descending sort gives. -/
def insertDesc (x : Char × Nat) : List (Char × Nat) → List (Char × Nat)
  | [] => [x]
  | y :: ys => if y.2 ≤ x.2 then x :: y :: ys else y :: insertDesc x ys

/-- Stable insertion sort by count, descending: the documented behaviour of
Python `sorted(..., key=count, reverse=True)` (stable mergesort). -/
def sortByCountDesc : List (Char × Nat) → List (Char × Nat)
  | [] => []
  | x :: xs => insertDesc x (sortByCountDesc xs)

/-- `count_letter_frequencies` (lines 32-37): count occurrences (keys in
first-occurrence order), then sort by count descending, stably. -/
def count_letter_frequencies (text : List Char) : List (Char × Nat) :=
  sortByCountDesc ((firstOccs text).map (fun c => (c, text.count c)))

/-- `calculate_index_of_coincidence` (lines 40-46). -/
def calculate_index_of_coincidence (text : List Char) : ℚ :=
  let freq := count_letter_frequencies text
  let L := text.length
  if L < 2 then 0
  else (((freq.map (fun p => p.2 * (p.2 - 1))).sum : ℕ) : ℚ) / ((L * (L - 1) : ℕ) : ℚ)

/-- Models the Python slice `l[i::N]` (element at `i`, then every `N`-th),
for step `N ≥ 1`. -/
def stride : List α → Nat → Nat → List α
  | [], _, _ => []
  | x :: xs, 0, N => x :: stride xs (N - 1) N
  | _ :: xs, i + 1, N => stride xs i N

/-- The quantity `abs(avg_ic - expected_ic)` computed for one candidate
length in `guess_key_length` (lines 58-61): stride-partition into
`possible_len` columns, average their ICs, distance to `0.056`. -/
def mean_ic_diff (ciphertext : List Char) (possible_len : Nat) : ℚ :=
  let parts := (List.range possible_len).map (fun i => stride ciphertext i possible_len)
  let avg_ic := (parts.map calculate_index_of_coincidence).sum / (possible_len : ℚ)
  |avg_ic - 0.056|

/-- One iteration of the loop in `guess_key_length` (lines 58-64); the
`none` state is the initial `closest_ic_diff = float('inf')`, which the
first candidate always beats. -/
def gkl_step (ciphertext : List Char) (acc : Nat × Option ℚ) (possible_len : Nat) :
    Nat × Option ℚ :=
  let current_diff := mean_ic_diff ciphertext possible_len
  match acc.2 with
  | none => (possible_len, some current_diff)
  | some closest =>
    if current_diff < closest then (possible_len, some current_diff) else acc

/-- `guess_key_length` (lines 49-67): scan candidate lengths `1..max_len`,
keep the first length whose mean-IC distance to `0.056` is strictly
smallest; `best_len` starts at 1. -/
def guess_key_length (ciphertext : List Char) (max_len : Nat) : Nat :=
  ((List.range' 1 max_len).foldl (gkl_step ciphertext) (1, none)).1

/-- `shift_char` (lines 70-73): `ALPHABET[(ALPHABET.index(c) - shift) % ALPHABET_LENGTH]`. -/
def shift_char (c : Char) (shift : Int) : Char :=
  ALPHABET.getD (((ALPHABET.indexOf c : Int) - shift) % (ALPHABET_LENGTH : Int)).toNat 'а'

/-- `shift_text` (lines 76-78). -/
def shift_text (text : List Char) (shift : Int) : List Char :=
  text.map (fun c => shift_char c shift)

/-- `find_shift` (lines 81-96), without its diagnostic printing: take the
head of the count-descending frequency table and return
`(ALPHABET.index(most_frequent) - ALPHABET.index('о')) % ALPHABET_LENGTH`;
an empty table yields `0`. -/
def find_shift (part : List Char) : Int :=
  match count_letter_frequencies part with
  | [] => 0
  | (most_frequent, _) :: _ =>
    ((ALPHABET.indexOf most_frequent : Int) - (ALPHABET.indexOf 'о' : Int)) %
      (ALPHABET_LENGTH : Int)

/-- The partition / per-column rotation / reassembly core shared by
`decrypt_vigenere` (lines 154-164) and `crack_vigenere` (lines 184-202):
stride-partition into `len(key_shifts)` columns, shift column `i` by
`key_shifts[i]`, and reassemble position `k` from column `k % N` at
intra-column offset `k // N`. -/
def vigenere_apply (cleaned : List Char) (key_shifts : List Int) : List Char :=
  let key_length := key_shifts.length
  let parts := (List.range key_length).map (fun i => stride cleaned i key_length)
  let plaintext_parts := (parts.zip key_shifts).map (fun ps => shift_text ps.1 ps.2)
  (List.range cleaned.length).map (fun k =>
    (plaintext_parts.getD (k % key_length) []).getD (k / key_length) 'а')

/-- `decrypt_vigenere` (lines 147-164): clean the text, turn the key into
shifts (lowercased, non-alphabet characters dropped), return the input
unchanged when no shift survives, otherwise apply the codec core. -/
def decrypt_vigenere (ciphertext : List Char) (key : List Char) : List Char :=
  let cleaned := clean_text ciphertext
  let key_shifts :=
    ((key.map py_lower).filter (fun c => decide (c ∈ ALPHABET))).map
      (fun c => (ALPHABET.indexOf c : Int))
  if key_shifts.isEmpty then ciphertext
  else vigenere_apply cleaned key_shifts

/-- Modelled from the spec: the repository has no encode function; §4.5 of
the specification defines `encode` as the same partition / rotate /
reassemble operation as decode with each shift negated modulo the alphabet
length. -/
def encode_vigenere (text : List Char) (key : List Char) : List Char :=
  let cleaned := clean_text text
  let key_shifts :=
    ((key.map py_lower).filter (fun c => decide (c ∈ ALPHABET))).map
      (fun c => (ALPHABET.indexOf c : Int))
  if key_shifts.isEmpty then text
  else vigenere_apply cleaned (key_shifts.map (fun s => (-s) % (ALPHABET_LENGTH : Int)))

/-- Models the Python expression `ALPHABET[shift]` (line 194) for the
in-range indices `-33 ≤ shift < 33` (Python raises `IndexError` outside
that range). -/
def py_at (shift : Int) : Char :=
  ALPHABET.getD (shift % (ALPHABET_LENGTH : Int)).toNat 'а'

/-- `crack_vigenere` (lines 166-204), without its printing: clean, estimate
the key length, stride-partition by the *estimated* length, then decode by
zipping those columns with the caller-supplied shifts; the key returned
renders the supplied shifts as alphabet letters. -/
def crack_vigenere (ciphertext : List Char) (shifts : List Int) : List Char × List Char :=
  let cleaned := clean_text ciphertext
  let key_length := guess_key_length cleaned 15
  let parts := (List.range key_length).map (fun i => stride cleaned i key_length)
  let key := shifts.map py_at
  let plaintext_parts := (parts.zip shifts).map (fun ps => shift_text ps.1 ps.2)
  let plaintext := (List.range cleaned.length).map (fun k =>
    (plaintext_parts.getD (k % key_length) []).getD (k / key_length) 'а')
  (plaintext, key)

example : ALPHABET_LENGTH = 33 := by decide
example : ALPHABET.indexOf 'о' = 15 := by decide
example : clean_text "Привет, мир!".toList = "приветмир".toList := by decide
example : count_letter_frequencies "абаб".toList = [('а', 2), ('б', 2)] := by decide
example : count_letter_frequencies "баб".toList = [('б', 2), ('а', 1)] := by decide
example : find_shift "ооа".toList = 0 := by decide
example : stride "абвгд".toList 1 2 = "бг".toList := by decide
example : shift_text "бвг".toList 1 = "абв".toList := by decide
example : decrypt_vigenere "аб".toList "вг".toList = "юю".toList := by decide
example : encode_vigenere "юю".toList "вг".toList = "аб".toList := by decide
example : decrypt_vigenere "аб".toList "!?".toList = "аб".toList := by decide

/-! ### Alphabet facts -/

lemma alphabet_length_eq : ALPHABET_LENGTH = 33 := by decide

lemma alphabet_length_int : (ALPHABET_LENGTH : Int) = 33 := by decide

lemma alphabet_indexOf_lt {c : Char} (hc : c ∈ ALPHABET) : ALPHABET.indexOf c < 33 := by
  have h : ∀ c ∈ ALPHABET, ALPHABET.indexOf c < 33 := by decide
  exact h c hc

lemma alphabet_getD_indexOf {c : Char} (hc : c ∈ ALPHABET) :
    ALPHABET.getD (ALPHABET.indexOf c) 'а' = c := by
  have h : ∀ c ∈ ALPHABET, ALPHABET.getD (ALPHABET.indexOf c) 'а' = c := by decide
  exact h c hc

lemma alphabet_indexOf_getD {j : Nat} (hj : j < 33) :
    ALPHABET.indexOf (ALPHABET.getD j 'а') = j := by
  have h : ∀ j : Fin 33, ALPHABET.indexOf (ALPHABET.getD j.val 'а') = j.val := by decide
  exact h ⟨j, hj⟩

lemma alphabet_getD_mem {j : Nat} (hj : j < 33) : ALPHABET.getD j 'а' ∈ ALPHABET := by
  have h : ∀ j : Fin 33, ALPHABET.getD j.val 'а' ∈ ALPHABET := by decide
  exact h ⟨j, hj⟩

lemma py_lower_of_mem {c : Char} (hc : c ∈ ALPHABET) : py_lower c = c := by
  have h : ∀ c ∈ ALPHABET, py_lower c = c := by decide
  exact h c hc

lemma clean_text_of_mem {l : List Char} (h : ∀ c ∈ l, c ∈ ALPHABET) : clean_text l = l := by
  unfold clean_text
  have h1 : l.map py_lower = l := by
    rw [List.map_congr_left (fun c hc => py_lower_of_mem (h c hc))]
    exact List.map_id' l
  rw [h1]
  exact List.filter_eq_self.mpr (fun c hc => by simpa using h c hc)

/-! ### shift_char facts -/

lemma indexOf_shift_char (c : Char) (s : Int) :
    (ALPHABET.indexOf (shift_char c s) : Int) = ((ALPHABET.indexOf c : Int) - s) % 33 := by
  unfold shift_char
  rw [alphabet_length_int]
  have h0 : 0 ≤ ((ALPHABET.indexOf c : Int) - s) % 33 := Int.emod_nonneg _ (by decide)
  have h1 : ((ALPHABET.indexOf c : Int) - s) % 33 < 33 := Int.emod_lt_of_pos _ (by decide)
  rw [alphabet_indexOf_getD (by omega : (((ALPHABET.indexOf c : Int) - s) % 33).toNat < 33)]
  omega

lemma shift_char_mem (c : Char) (s : Int) : shift_char c s ∈ ALPHABET := by
  unfold shift_char
  rw [alphabet_length_int]
  exact alphabet_getD_mem (by
    have h0 : 0 ≤ ((ALPHABET.indexOf c : Int) - s) % 33 := Int.emod_nonneg _ (by decide)
    have h1 : ((ALPHABET.indexOf c : Int) - s) % 33 < 33 := Int.emod_lt_of_pos _ (by decide)
    omega)

lemma alphabet_eq_of_indexOf {a b : Char} (ha : a ∈ ALPHABET) (hb : b ∈ ALPHABET)
    (h : ALPHABET.indexOf a = ALPHABET.indexOf b) : a = b := by
  calc a = ALPHABET.getD (ALPHABET.indexOf a) 'а' := (alphabet_getD_indexOf ha).symm
    _ = ALPHABET.getD (ALPHABET.indexOf b) 'а' := by rw [h]
    _ = b := alphabet_getD_indexOf hb

lemma shift_char_shift_char (c : Char) (a b : Int) :
    shift_char (shift_char c a) b = shift_char c (a + b) := by
  have h1 := indexOf_shift_char (shift_char c a) b
  have h2 := indexOf_shift_char c a
  have h3 := indexOf_shift_char c (a + b)
  apply alphabet_eq_of_indexOf (shift_char_mem _ _) (shift_char_mem _ _)
  omega

lemma shift_char_zero_mod {c : Char} (hc : c ∈ ALPHABET) {s : Int} (hs : s % 33 = 0) :
    shift_char c s = c := by
  unfold shift_char
  rw [alphabet_length_int]
  have hlt : ALPHABET.indexOf c < 33 := alphabet_indexOf_lt hc
  have h2 : (((ALPHABET.indexOf c : Int) - s) % 33).toNat = ALPHABET.indexOf c := by omega
  rw [h2]
  exact alphabet_getD_indexOf hc

lemma shift_char_cancel_left {c : Char} (hc : c ∈ ALPHABET) (s : Int) :
    shift_char (shift_char c ((-s) % 33)) s = c := by
  rw [shift_char_shift_char]
  exact shift_char_zero_mod hc (by omega)

lemma shift_char_cancel_right {c : Char} (hc : c ∈ ALPHABET) (s : Int) :
    shift_char (shift_char c s) ((-s) % 33) = c := by
  rw [shift_char_shift_char]
  exact shift_char_zero_mod hc (by omega)

lemma shift_char_injOn {a b : Char} (ha : a ∈ ALPHABET) (hb : b ∈ ALPHABET) (s : Int)
    (h : shift_char a s = shift_char b s) : a = b := by
  have h1 := indexOf_shift_char a s
  have h2 := indexOf_shift_char b s
  rw [h] at h1
  have ha' : ALPHABET.indexOf a < 33 := alphabet_indexOf_lt ha
  have hb' : ALPHABET.indexOf b < 33 := alphabet_indexOf_lt hb
  have : ALPHABET.indexOf a = ALPHABET.indexOf b := by omega
  calc a = ALPHABET.getD (ALPHABET.indexOf a) 'а' := (alphabet_getD_indexOf ha).symm
    _ = ALPHABET.getD (ALPHABET.indexOf b) 'а' := by rw [this]
    _ = b := alphabet_getD_indexOf hb

/-! ### Stride indexing -/

lemma stride_getElem? (l : List α) (i N m : Nat) (hN : 1 ≤ N) (hi : i < N) :
    (stride l i N)[m]? = l[i + m * N]? := by
  induction l generalizing i m with
  | nil => simp [stride]
  | cons x xs ih =>
    cases i with
    | zero =>
      cases m with
      | zero => simp [stride]
      | succ m =>
        have h1 : (stride xs (N - 1) N)[m]? = xs[(N - 1) + m * N]? :=
          ih (N - 1) m (by omega)
        have h2 : 0 + (m + 1) * N = ((N - 1) + m * N) + 1 := by
          rw [Nat.succ_mul]; omega
        rw [h2]
        simpa [stride] using h1
    | succ i =>
      have h1 : (stride xs i N)[m]? = xs[i + m * N]? := ih i m (by omega)
      have h2 : (i + 1) + m * N = (i + m * N) + 1 := by omega
      rw [h2]
      simpa [stride] using h1

/-! ### Frequency table: permutation, ordering, stability -/

lemma insertDesc_perm (x : Char × Nat) (s : List (Char × Nat)) :
    List.Perm (insertDesc x s) (x :: s) := by
  induction s with
  | nil => rfl
  | cons y ys ih =>
    by_cases h : y.2 ≤ x.2
    · simp [insertDesc, h]
    · simpa [insertDesc, h] using ((ih.cons y).trans (List.Perm.swap x y ys))

lemma sortByCountDesc_perm (l : List (Char × Nat)) : List.Perm (sortByCountDesc l) l := by
  induction l with
  | nil => rfl
  | cons x xs ih => exact (insertDesc_perm x (sortByCountDesc xs)).trans (ih.cons x)

lemma mem_insertDesc {y x : Char × Nat} {s : List (Char × Nat)} :
    y ∈ insertDesc x s ↔ y = x ∨ y ∈ s := by
  simpa using (insertDesc_perm x s).mem_iff

lemma mem_sortByCountDesc {y : Char × Nat} {l : List (Char × Nat)} :
    y ∈ sortByCountDesc l ↔ y ∈ l := (sortByCountDesc_perm l).mem_iff

lemma insertDesc_pairwise {P : Char → Char → Prop} (x : Char × Nat) (s : List (Char × Nat))
    (hs : s.Pairwise (fun a b => b.2 < a.2 ∨ (a.2 = b.2 ∧ P a.1 b.1)))
    (hx : ∀ y ∈ s, x.2 = y.2 → P x.1 y.1) :
    (insertDesc x s).Pairwise (fun a b => b.2 < a.2 ∨ (a.2 = b.2 ∧ P a.1 b.1)) := by
  induction s with
  | nil => simp [insertDesc]
  | cons y ys ih =>
    rw [List.pairwise_cons] at hs
    by_cases h : y.2 ≤ x.2
    · rw [insertDesc, if_pos h, List.pairwise_cons]
      constructor
      · intro z hz
        rcases List.mem_cons.mp hz with rfl | hz
        · rcases Nat.lt_or_ge z.2 x.2 with h2 | h2
          · exact Or.inl h2
          · exact Or.inr ⟨by omega, hx z (by simp) (by omega)⟩
        · rcases hs.1 z hz with h2 | h2
          · exact Or.inl (by omega)
          · rcases Nat.lt_or_ge z.2 x.2 with h3 | h3
            · exact Or.inl h3
            · exact Or.inr ⟨by omega, hx z (List.mem_cons_of_mem _ hz) (by omega)⟩
      · exact List.pairwise_cons.mpr hs
    · rw [insertDesc, if_neg h, List.pairwise_cons]
      constructor
      · intro z hz
        rcases mem_insertDesc.mp hz with hz | hz
        · subst hz; exact Or.inl (by omega)
        · exact hs.1 z hz
      · exact ih hs.2 (fun z hz h2 => hx z (List.mem_cons_of_mem _ hz) h2)

lemma sortByCountDesc_pairwise {P : Char → Char → Prop} (l : List (Char × Nat))
    (hl : l.Pairwise (fun a b => P a.1 b.1)) :
    (sortByCountDesc l).Pairwise (fun a b => b.2 < a.2 ∨ (a.2 = b.2 ∧ P a.1 b.1)) := by
  induction l with
  | nil => simp [sortByCountDesc]
  | cons x xs ih =>
    rw [List.pairwise_cons] at hl
    exact insertDesc_pairwise x _ (ih hl.2)
      (fun y hy _ => hl.1 y (mem_sortByCountDesc.mp hy))

lemma mem_firstOccs {c : Char} {l : List Char} : c ∈ firstOccs l ↔ c ∈ l := by
  induction l with
  | nil => simp [firstOccs]
  | cons x xs ih =>
    by_cases h : c = x
    · subst h; simp [firstOccs]
    · simp [firstOccs, List.mem_filter, ih, h]

lemma firstOccs_nodup (l : List Char) : (firstOccs l).Nodup := by
  induction l with
  | nil => simp [firstOccs]
  | cons x xs ih =>
    rw [firstOccs, List.nodup_cons]
    constructor
    · intro h
      have := (List.mem_filter.mp h).2
      simp at this
    · exact ih.filter _

lemma firstOccs_pairwise_indexOf (l : List Char) :
    (firstOccs l).Pairwise (fun a b => l.indexOf a < l.indexOf b) := by
  induction l with
  | nil => simp [firstOccs]
  | cons x xs ih =>
    rw [firstOccs, List.pairwise_cons]
    constructor
    · intro b hb
      have hbx : b ≠ x := by
        have := (List.mem_filter.mp hb).2
        simpa using this
      rw [List.indexOf_cons_self, List.indexOf_cons_ne _ (fun h => hbx h.symm)]
      omega
    · have h1 : ((firstOccs xs).filter (fun c => decide (c ≠ x))).Pairwise
          (fun a b => xs.indexOf a < xs.indexOf b) :=
        List.Pairwise.sublist (List.filter_sublist _) ih
      refine h1.imp_of_mem ?_
      intro a b ha hb hab
      have hax : a ≠ x := by simpa using (List.mem_filter.mp ha).2
      have hbx : b ≠ x := by simpa using (List.mem_filter.mp hb).2
      rw [List.indexOf_cons_ne _ (fun h => hax h.symm),
        List.indexOf_cons_ne _ (fun h => hbx h.symm)]
      omega

lemma firstOccs_ne_nil {l : List Char} (h : l ≠ []) : firstOccs l ≠ [] := by
  cases l with
  | nil => exact absurd rfl h
  | cons x xs => simp [firstOccs]

lemma mem_count_letter_frequencies {p : Char × Nat} {text : List Char} :
    p ∈ count_letter_frequencies text ↔ p.1 ∈ text ∧ p.2 = text.count p.1 := by
  unfold count_letter_frequencies
  rw [mem_sortByCountDesc, List.mem_map]
  constructor
  · rintro ⟨c, hc, rfl⟩
    exact ⟨mem_firstOccs.mp hc, rfl⟩
  · rintro ⟨h1, h2⟩
    exact ⟨p.1, mem_firstOccs.mpr h1, by rw [← h2]⟩

lemma count_letter_frequencies_pairwise (text : List Char) :
    (count_letter_frequencies text).Pairwise
      (fun a b => b.2 < a.2 ∨ (a.2 = b.2 ∧ text.indexOf a.1 < text.indexOf b.1)) := by
  unfold count_letter_frequencies
  exact sortByCountDesc_pairwise _
    ((firstOccs_pairwise_indexOf text).map (fun c => (c, text.count c)) (fun a b h => h))

lemma count_letter_frequencies_ne_nil {text : List Char} (h : text ≠ []) :
    count_letter_frequencies text ≠ [] := by
  unfold count_letter_frequencies
  intro hcon
  have h1 := (sortByCountDesc_perm ((firstOccs text).map (fun c => (c, text.count c)))).length_eq
  rw [hcon] at h1
  simp only [List.length_nil, List.length_map] at h1
  exact firstOccs_ne_nil h (List.length_eq_zero.mp h1.symm)

lemma freq_head_max {text : List Char} (h : text ≠ []) :
    ∃ m n rest, count_letter_frequencies text = (m, n) :: rest ∧ m ∈ text ∧
      n = text.count m ∧ ∀ c ∈ text, text.count c ≤ n := by
  rcases hfreq : count_letter_frequencies text with _ | ⟨⟨m, n⟩, rest⟩
  · exact absurd hfreq (count_letter_frequencies_ne_nil h)
  · have hmem : (m, n) ∈ count_letter_frequencies text := by rw [hfreq]; simp
    rw [mem_count_letter_frequencies] at hmem
    refine ⟨m, n, rest, rfl, hmem.1, hmem.2, ?_⟩
    intro c hc
    have hcmem : (c, text.count c) ∈ count_letter_frequencies text :=
      mem_count_letter_frequencies.mpr ⟨hc, rfl⟩
    rw [hfreq] at hcmem
    rcases List.mem_cons.mp hcmem with h1 | h1
    · rw [Prod.mk.injEq] at h1
      omega
    · have hpw := count_letter_frequencies_pairwise text
      rw [hfreq, List.pairwise_cons] at hpw
      rcases hpw.1 _ h1 with h2 | h2
      · exact Nat.le_of_lt h2
      · exact Nat.le_of_eq h2.1.symm

/-! ### Index of coincidence -/

lemma firstOccs_toFinset (l : List Char) : (firstOccs l).toFinset = l.toFinset := by
  ext c
  simp [List.mem_toFinset, mem_firstOccs]

lemma freq_num_eq (text : List Char) :
    ((count_letter_frequencies text).map (fun p => p.2 * (p.2 - 1))).sum
      = ∑ c ∈ text.toFinset, text.count c * (text.count c - 1) := by
  unfold count_letter_frequencies
  rw [((sortByCountDesc_perm _).map (fun p => p.2 * (p.2 - 1))).sum_eq, List.map_map]
  rw [← firstOccs_toFinset,
    List.sum_toFinset (fun c => text.count c * (text.count c - 1)) (firstOccs_nodup text)]
  rfl

lemma ic_eq_finset (text : List Char) (h : 2 ≤ text.length) :
    calculate_index_of_coincidence text
      = ((∑ c ∈ text.toFinset, text.count c * (text.count c - 1) : ℕ) : ℚ)
        / ((text.length * (text.length - 1) : ℕ) : ℚ) := by
  unfold calculate_index_of_coincidence
  rw [if_neg (by omega), freq_num_eq]

lemma ic_short (text : List Char) (h : text.length < 2) :
    calculate_index_of_coincidence text = 0 := by
  unfold calculate_index_of_coincidence
  rw [if_pos h]

lemma ic_num_le_den (text : List Char) :
    ∑ c ∈ text.toFinset, text.count c * (text.count c - 1)
      ≤ text.length * (text.length - 1) := by
  have hsum : ∑ c ∈ text.toFinset, text.count c = text.length :=
    List.sum_toFinset_count_eq_length text
  calc ∑ c ∈ text.toFinset, text.count c * (text.count c - 1)
      ≤ ∑ c ∈ text.toFinset, text.count c * (text.length - 1) := by
        refine Finset.sum_le_sum ?_
        intro c _
        exact Nat.mul_le_mul_left _ (Nat.sub_le_sub_right (text.count_le_length c) 1)
    _ = text.length * (text.length - 1) := by rw [← Finset.sum_mul, hsum]

lemma ic_nonneg (text : List Char) : 0 ≤ calculate_index_of_coincidence text := by
  rcases Nat.lt_or_ge text.length 2 with h | h
  · rw [ic_short text h]
  · rw [ic_eq_finset text h]
    positivity

lemma ic_le_one (text : List Char) : calculate_index_of_coincidence text ≤ 1 := by
  rcases Nat.lt_or_ge text.length 2 with h | h
  · rw [ic_short text h]; norm_num
  · rw [ic_eq_finset text h]
    have hden : (0 : ℚ) < ((text.length * (text.length - 1) : ℕ) : ℚ) := by
      have : 0 < text.length * (text.length - 1) := by
        have := Nat.mul_le_mul (le_refl 2) (Nat.le_refl 1)
        exact Nat.mul_pos (by omega) (by omega)
      exact_mod_cast this
    rw [div_le_one hden]
    exact_mod_cast ic_num_le_den text

lemma ic_identical (text : List Char) (h2 : 2 ≤ text.length)
    (hid : ∀ x ∈ text, ∀ y ∈ text, x = y) :
    calculate_index_of_coincidence text = 1 := by
  obtain ⟨c, cs, rfl⟩ : ∃ c cs, text = c :: cs := by
    cases text with
    | nil => simp at h2
    | cons c cs => exact ⟨c, cs, rfl⟩
  set text := c :: cs with htext
  have hc : c ∈ text := by simp [htext]
  have hcount : text.count c = text.length :=
    List.count_eq_length.mpr (fun b hb => hid c hc b hb)
  have hfin : text.toFinset = {c} := by
    ext a
    simp only [List.mem_toFinset, Finset.mem_singleton]
    exact ⟨fun ha => (hid a ha c hc), fun ha => ha ▸ hc⟩
  rw [ic_eq_finset text h2, hfin, Finset.sum_singleton, hcount]
  have hpos : 0 < text.length * (text.length - 1) := Nat.mul_pos (by omega) (by omega)
  have hden : ((text.length * (text.length - 1) : ℕ) : ℚ) ≠ 0 := by
    have h0 : text.length * (text.length - 1) ≠ 0 := by omega
    exact_mod_cast h0
  exact div_self hden

/-! ### The codec core, pointwise -/

lemma getElem?_zip (l₁ : List α) (l₂ : List β) (i : Nat) (h₁ : i < l₁.length)
    (h₂ : i < l₂.length) : (l₁.zip l₂)[i]? = some (l₁[i], l₂[i]) := by
  induction l₁ generalizing l₂ i with
  | nil => simp at h₁
  | cons x xs ih =>
    cases l₂ with
    | nil => simp at h₂
    | cons y ys =>
      cases i with
      | zero => simp
      | succ i =>
        rw [List.zip_cons_cons]
        simpa using ih ys i (by simpa using h₁) (by simpa using h₂)

lemma getD_eq_of_getElem? {l : List α} {i : Nat} {a : α} (d : α) (h : l[i]? = some a) :
    l.getD i d = a := by
  rw [List.getD_eq_getElem?_getD, h, Option.getD_some]

lemma vigenere_apply_eq_map (cleaned : List Char) (ks : List Int) (hne : ks ≠ []) :
    vigenere_apply cleaned ks = (List.range cleaned.length).map
      (fun k => shift_char (cleaned.getD k 'а') (ks.getD (k % ks.length) 0)) := by
  unfold vigenere_apply
  refine List.map_congr_left ?_
  intro k hk
  rw [List.mem_range] at hk
  have hN : 1 ≤ ks.length := by
    cases ks with
    | nil => exact absurd rfl hne
    | cons a as => simp
  have hmod : k % ks.length < ks.length := Nat.mod_lt _ (by omega)
  have hparts_len : ((List.range ks.length).map
      (fun i => stride cleaned i ks.length)).length = ks.length := by simp
  have hzip : (((List.range ks.length).map (fun i => stride cleaned i ks.length)).zip
      ks)[k % ks.length]? = some (stride cleaned (k % ks.length) ks.length,
        ks.getD (k % ks.length) 0) := by
    rw [getElem?_zip _ _ _ (by simpa using hmod) hmod]
    congr 1
    rw [Prod.mk.injEq]
    constructor
    · rw [List.getElem_map]
      congr 1
      simp
    · exact (List.getD_eq_getElem ks 0 hmod).symm
  have hpp : (((((List.range ks.length).map (fun i => stride cleaned i ks.length)).zip
      ks).map (fun ps => shift_text ps.1 ps.2)).getD (k % ks.length) [])
      = shift_text (stride cleaned (k % ks.length) ks.length)
        (ks.getD (k % ks.length) 0) := by
    apply getD_eq_of_getElem?
    rw [List.getElem?_map, hzip, Option.map_some']
  rw [hpp]
  have hstr : (stride cleaned (k % ks.length) ks.length)[k / ks.length]?
      = some (cleaned.getD k 'а') := by
    rw [stride_getElem? cleaned _ ks.length _ hN hmod]
    have hk2 : k % ks.length + k / ks.length * ks.length = k := Nat.mod_add_div' k ks.length
    rw [hk2, List.getD_eq_getElem cleaned 'а' hk]
    exact List.getElem?_eq_getElem hk
  have hshift : (shift_text (stride cleaned (k % ks.length) ks.length)
      (ks.getD (k % ks.length) 0))[k / ks.length]?
        = some (shift_char (cleaned.getD k 'а') (ks.getD (k % ks.length) 0)) := by
    unfold shift_text
    rw [List.getElem?_map, hstr, Option.map_some']
  rw [getD_eq_of_getElem? 'а' hshift]

lemma vigenere_apply_length (cleaned : List Char) (ks : List Int) (hne : ks ≠ []) :
    (vigenere_apply cleaned ks).length = cleaned.length := by
  rw [vigenere_apply_eq_map cleaned ks hne, List.length_map, List.length_range]

lemma vigenere_apply_mem_alphabet (cleaned : List Char) (ks : List Int) (hne : ks ≠ [])
    {c : Char} (hc : c ∈ vigenere_apply cleaned ks) : c ∈ ALPHABET := by
  rw [vigenere_apply_eq_map cleaned ks hne] at hc
  rcases List.mem_map.mp hc with ⟨k, _, rfl⟩
  exact shift_char_mem _ _

lemma map_getD_range (l : List α) (d : α) :
    (List.range l.length).map (fun k => l.getD k d) = l := by
  apply List.ext_getElem (by simp)
  intro n h1 h2
  rw [List.getElem_map, List.getElem_range, List.getD_eq_getElem l d h2]

lemma getD_map_of_lt (f : α → β) (l : List α) {m : Nat} (hm : m < l.length) (d : β) (d' : α) :
    (l.map f).getD m d = f (l.getD m d') := by
  rw [List.getD_eq_getElem _ _ (by simpa using hm), List.getD_eq_getElem _ _ hm,
    List.getElem_map]

lemma vigenere_apply_getD {cleaned : List Char} {ks : List Int} (hne : ks ≠ [])
    {k : Nat} (hk : k < cleaned.length) :
    (vigenere_apply cleaned ks).getD k 'а'
      = shift_char (cleaned.getD k 'а') (ks.getD (k % ks.length) 0) := by
  rw [vigenere_apply_eq_map cleaned ks hne]
  rw [getD_map_of_lt _ _ (by simpa using hk) 'а' 0]
  have hr : (List.range cleaned.length).getD k 0 = k := by
    rw [List.getD_eq_getElem _ _ (by simpa using hk), List.getElem_range]
  rw [hr]

lemma vigenere_apply_vigenere_apply (cleaned : List Char)
    (hmem : ∀ c ∈ cleaned, c ∈ ALPHABET) (ks₁ ks₂ : List Int) (hne : ks₁ ≠ [])
    (hlen : ks₂.length = ks₁.length)
    (hcancel : ∀ c ∈ ALPHABET, ∀ j, j < ks₁.length →
      shift_char (shift_char c (ks₁.getD j 0)) (ks₂.getD j 0) = c) :
    vigenere_apply (vigenere_apply cleaned ks₁) ks₂ = cleaned := by
  have hne₂ : ks₂ ≠ [] := by
    intro h
    rw [h] at hlen
    exact hne (List.length_eq_zero.mp hlen.symm)
  have hlen₁ : (vigenere_apply cleaned ks₁).length = cleaned.length :=
    vigenere_apply_length cleaned ks₁ hne
  rw [vigenere_apply_eq_map _ ks₂ hne₂, hlen₁]
  have hstep : (List.range cleaned.length).map
      (fun k => shift_char ((vigenere_apply cleaned ks₁).getD k 'а')
        (ks₂.getD (k % ks₂.length) 0))
      = (List.range cleaned.length).map (fun k => cleaned.getD k 'а') := by
    refine List.map_congr_left ?_
    intro k hk
    rw [List.mem_range] at hk
    have h1 : 1 ≤ ks₁.length := by
      cases ks₁ with
      | nil => exact absurd rfl hne
      | cons a as => simp
    have hcmem : cleaned.getD k 'а' ∈ cleaned := by
      rw [List.getD_eq_getElem cleaned 'а' hk]
      exact List.getElem_mem hk
    rw [vigenere_apply_getD hne hk, hlen]
    exact hcancel _ (hmem _ hcmem) _ (Nat.mod_lt _ (by omega))
  rw [hstep, map_getD_range cleaned 'а']

/-! ### decrypt / encode unfoldings -/

lemma key_filter_eq_clean (key : List Char) :
    (key.map py_lower).filter (fun c => decide (c ∈ ALPHABET)) = clean_text key := rfl

lemma decrypt_vigenere_of_empty {text key : List Char} (h : clean_text key = []) :
    decrypt_vigenere text key = text := by
  unfold decrypt_vigenere
  rw [key_filter_eq_clean, h]
  simp

lemma decrypt_vigenere_of_ne {text key : List Char} (h : clean_text key ≠ []) :
    decrypt_vigenere text key = vigenere_apply (clean_text text)
      ((clean_text key).map (fun c => (ALPHABET.indexOf c : Int))) := by
  unfold decrypt_vigenere
  rw [key_filter_eq_clean]
  have hne : ((clean_text key).map (fun c => (ALPHABET.indexOf c : Int))).isEmpty = false := by
    cases hck : clean_text key with
    | nil => exact absurd hck h
    | cons a as => simp
  simp [hne]

lemma encode_vigenere_of_ne {text key : List Char} (h : clean_text key ≠ []) :
    encode_vigenere text key = vigenere_apply (clean_text text)
      (((clean_text key).map (fun c => (ALPHABET.indexOf c : Int))).map
        (fun s => (-s) % (ALPHABET_LENGTH : Int))) := by
  unfold encode_vigenere
  rw [key_filter_eq_clean]
  have hne : ((clean_text key).map (fun c => (ALPHABET.indexOf c : Int))).isEmpty = false := by
    cases hck : clean_text key with
    | nil => exact absurd hck h
    | cons a as => simp
  simp [hne]

/-! ### Key-length estimation: fold invariant -/

lemma gkl_fold_inv (ct : List Char) (l : List Nat) :
    ∀ (b : Nat) (d : ℚ), d = mean_ic_diff ct b →
    l.Pairwise (· < ·) → (∀ N ∈ l, b < N) →
    ∃ r e, l.foldl (gkl_step ct) (b, some d) = (r, some e) ∧
      e = mean_ic_diff ct r ∧ (r = b ∨ r ∈ l) ∧ e ≤ d ∧
      (∀ N ∈ l, e ≤ mean_ic_diff ct N) ∧ (r ≠ b → e < d) ∧
      (∀ N ∈ l, N < r → e < mean_ic_diff ct N) := by
  induction l with
  | nil =>
    intro b d hd _ _
    exact ⟨b, d, rfl, hd, Or.inl rfl, le_refl d, by simp, fun h => absurd rfl h, by simp⟩
  | cons N0 rest ih =>
    intro b d hd hpw hgt
    rw [List.pairwise_cons] at hpw
    rw [List.foldl_cons]
    have hstep : gkl_step ct (b, some d) N0
        = if mean_ic_diff ct N0 < d then (N0, some (mean_ic_diff ct N0)) else (b, some d) :=
      rfl
    by_cases hlt : mean_ic_diff ct N0 < d
    · rw [hstep, if_pos hlt]
      obtain ⟨r, e, hfold, he, hr, hle, hall, hne, hfirst⟩ :=
        ih N0 (mean_ic_diff ct N0) rfl hpw.2 (fun N hN => hpw.1 N hN)
      refine ⟨r, e, hfold, he, ?_, ?_, ?_, ?_, ?_⟩
      · rcases hr with hr | hr
        · exact Or.inr (by simp [hr])
        · exact Or.inr (List.mem_cons_of_mem _ hr)
      · exact le_of_lt (lt_of_le_of_lt hle hlt)
      · intro N hN
        rcases List.mem_cons.mp hN with rfl | hN
        · exact hle
        · exact hall N hN
      · intro _
        exact lt_of_le_of_lt hle hlt
      · intro N hN hNr
        rcases List.mem_cons.mp hN with rfl | hN
        · have : r ≠ N := by omega
          exact lt_of_lt_of_le (hne this) (le_refl _)
        · exact hfirst N hN hNr
    · rw [hstep, if_neg hlt]
      push_neg at hlt
      obtain ⟨r, e, hfold, he, hr, hle, hall, hne, hfirst⟩ :=
        ih b d hd hpw.2 (fun N hN => hgt N (List.mem_cons_of_mem _ hN))
      refine ⟨r, e, hfold, he, ?_, hle, ?_, hne, ?_⟩
      · rcases hr with hr | hr
        · exact Or.inl hr
        · exact Or.inr (List.mem_cons_of_mem _ hr)
      · intro N hN
        rcases List.mem_cons.mp hN with rfl | hN
        · exact le_trans hle hlt
        · exact hall N hN
      · intro N hN hNr
        rcases List.mem_cons.mp hN with rfl | hN
        · have hrb : r ≠ b := by
            intro hrb
            have := hgt N (by simp)
            omega
          exact lt_of_lt_of_le (hne hrb) hlt
        · exact hfirst N hN hNr

lemma guess_key_length_inv (ct : List Char) (max_len : Nat) (h : 1 ≤ max_len) :
    ∃ r e, (List.range' 1 max_len).foldl (gkl_step ct) (1, none) = (r, some e) ∧
      guess_key_length ct max_len = r ∧ e = mean_ic_diff ct r ∧
      1 ≤ r ∧ r ≤ max_len ∧
      (∀ N, 1 ≤ N → N ≤ max_len → e ≤ mean_ic_diff ct N) ∧
      (∀ N, 1 ≤ N → N ≤ max_len → N < r → e < mean_ic_diff ct N) := by
  have hrange : List.range' 1 max_len = 1 :: List.range' 2 (max_len - 1) := by
    have h2 : max_len = max_len - 1 + 1 := by omega
    conv_lhs => rw [h2]
    rw [List.range'_succ]
  have hstep1 : gkl_step ct (1, none) 1 = (1, some (mean_ic_diff ct 1)) := rfl
  obtain ⟨r, e, hfold, he, hr, hle, hall, hne, hfirst⟩ :=
    gkl_fold_inv ct (List.range' 2 (max_len - 1)) 1 (mean_ic_diff ct 1) rfl
      (List.pairwise_lt_range' _ _)
      (fun N hN => by
        rw [List.mem_range'_1] at hN
        omega)
  have hfold' : (List.range' 1 max_len).foldl (gkl_step ct) (1, none) = (r, some e) := by
    rw [hrange, List.foldl_cons, hstep1, hfold]
  refine ⟨r, e, hfold', ?_, he, ?_, ?_, ?_, ?_⟩
  · unfold guess_key_length
    rw [hfold']
  · rcases hr with hr | hr
    · omega
    · rw [List.mem_range'_1] at hr
      omega
  · rcases hr with hr | hr
    · omega
    · rw [List.mem_range'_1] at hr
      omega
  · intro N h1N hNmax
    rcases Nat.eq_or_lt_of_le h1N with h1N' | h1N'
    · rw [← h1N']
      exact hle
    · refine hall N ?_
      rw [List.mem_range'_1]
      omega
  · intro N h1N hNmax hNr
    rcases Nat.eq_or_lt_of_le h1N with h1N' | h1N'
    · rw [← h1N'] at hNr ⊢
      have hrne : r ≠ 1 := by omega
      exact hne hrne
    · refine hfirst N ?_ hNr
      rw [List.mem_range'_1]
      omega

/-! ### find_shift helpers -/

lemma find_shift_of_head {part : List Char} {m : Char} {n : Nat} {rest : List (Char × Nat)}
    (h : count_letter_frequencies part = (m, n) :: rest) :
    find_shift part
      = ((ALPHABET.indexOf m : Int) - (ALPHABET.indexOf 'о' : Int)) % (ALPHABET_LENGTH : Int) := by
  unfold find_shift
  rw [h]

lemma count_shift_text {part : List Char} (hpart : ∀ c ∈ part, c ∈ ALPHABET) {m : Char}
    (hm : m ∈ ALPHABET) (s : Int) :
    (shift_text part s).count (shift_char m s) = part.count m := by
  induction part with
  | nil => rfl
  | cons x xs ih =>
    have hx : x ∈ ALPHABET := hpart x (by simp)
    have ih' := ih (fun c hc => hpart c (List.mem_cons_of_mem _ hc))
    unfold shift_text at ih' ⊢
    rw [List.map_cons, List.count_cons, List.count_cons, ih']
    by_cases hxm : x = m
    · subst hxm
      simp
    · have hne : shift_char x s ≠ shift_char m s :=
        fun hcon => hxm (shift_char_injOn hx hm s hcon)
      simp [hxm, hne]

lemma freq_head_of_first {text : List Char} {m : Char} (hm : m ∈ text)
    (hmax : ∀ c ∈ text, text.count c ≤ text.count m)
    (hfirst : ∀ c ∈ text, text.count c = text.count m → text.indexOf m ≤ text.indexOf c) :
    ∃ rest, count_letter_frequencies text = (m, text.count m) :: rest := by
  have hne : text ≠ [] := by
    intro h
    rw [h] at hm
    simp at hm
  obtain ⟨m0, n0, rest, hfreq, hm0, hn0, hmax0⟩ := freq_head_max hne
  have h1 : n0 = text.count m := le_antisymm (hn0 ▸ hmax m0 hm0) (hmax0 m hm)
  by_cases heq : m0 = m
  · subst heq
    exact ⟨rest, by rw [hfreq, h1]⟩
  · exfalso
    have hmem : (m, text.count m) ∈ count_letter_frequencies text :=
      mem_count_letter_frequencies.mpr ⟨hm, rfl⟩
    rw [hfreq] at hmem
    rcases List.mem_cons.mp hmem with h2 | h2
    · rw [Prod.mk.injEq] at h2
      exact heq h2.1.symm
    · have hpw := count_letter_frequencies_pairwise text
      rw [hfreq, List.pairwise_cons] at hpw
      rcases hpw.1 _ h2 with h3 | h3
      · simp only at h3
        omega
      · have h4 := hfirst m0 hm0 (by rw [← hn0, h1])
        have h5 : text.indexOf m0 < text.indexOf m := h3.2
        omega

/-! ### Concrete facts for the two-letter ciphertext -/

lemma stride_pair_short (a b : α) (i N : Nat) (hN : 2 ≤ N) :
    (stride [a, b] i N).length < 2 := by
  match i with
  | 0 =>
    have h1 : N - 1 = (N - 2) + 1 := by omega
    simp only [stride]
    rw [h1]
    simp [stride]
  | 1 =>
    simp [stride]
  | (i + 2) =>
    simp [stride]

lemma ic_ab : calculate_index_of_coincidence ['а', 'б'] = 0 := by
  have hnum : ((count_letter_frequencies ['а', 'б']).map (fun p => p.2 * (p.2 - 1))).sum
      = 0 := by decide
  unfold calculate_index_of_coincidence
  simp only [hnum]
  norm_num

lemma mean_ic_diff_ab (N : Nat) (hN : 1 ≤ N) : mean_ic_diff ['а', 'б'] N = 7 / 125 := by
  unfold mean_ic_diff
  rcases Nat.eq_or_lt_of_le hN with h1 | h1
  · rw [← h1]
    have h2 : (List.range 1).map (fun i => stride (['а', 'б'] : List Char) i 1)
        = [['а', 'б']] := by decide
    rw [h2]
    simp only [List.map_cons, List.map_nil, List.sum_cons, List.sum_nil, ic_ab]
    norm_num
  · simp only [List.map_map]
    have hsum : ((List.range N).map
        (calculate_index_of_coincidence ∘ fun i => stride ['а', 'б'] i N)).sum = 0 := by
      apply List.sum_eq_zero
      intro x hx
      rcases List.mem_map.mp hx with ⟨i, _, rfl⟩
      exact ic_short _ (stride_pair_short 'а' 'б' i N (by omega))
    rw [hsum, zero_div, zero_sub, abs_neg, abs_of_nonneg (by norm_num)]
    norm_num

lemma guess_ab : guess_key_length ['а', 'б'] 15 = 1 := by
  obtain ⟨r, e, hfold, hg, he, hr1, hrmax, hall, hfirst⟩ :=
    guess_key_length_inv ['а', 'б'] 15 (by omega)
  rw [hg]
  by_contra hne1
  have hlt := hfirst 1 (by omega) (by omega) (by omega)
  rw [he, mean_ic_diff_ab r (by omega), mean_ic_diff_ab 1 (by omega)] at hlt
  exact lt_irrefl _ hlt

/-! ### Claim theorems -/

/-- Claim C1 (round-trip law): for every symbol sequence `s` over the alphabet
and every key `k` of length between 1 and `len s` whose symbols all belong to
the alphabet, decoding the encoding of `s` with `k` yields `s`, and encoding
the decoding of `s` with `k` yields `s`, where `encode_vigenere` is the same
stride-partition/rotate/reassemble operation as `decrypt_vigenere` with each
shift negated modulo the alphabet length. -/
theorem vigenere_round_trip (s k : List Char)
    (hs : ∀ c ∈ s, c ∈ ALPHABET) (hk : ∀ c ∈ k, c ∈ ALPHABET)
    (hk1 : 1 ≤ k.length) (hk2 : k.length ≤ s.length) :
    decrypt_vigenere (encode_vigenere s k) k = s ∧
    encode_vigenere (decrypt_vigenere s k) k = s := by
  have hck : clean_text k = k := clean_text_of_mem hk
  have hkne : k ≠ [] := by
    intro h
    rw [h] at hk1
    simp at hk1
  have hckne : clean_text k ≠ [] := by rw [hck]; exact hkne
  set ks := k.map (fun c => (ALPHABET.indexOf c : Int)) with hks
  have hksne : ks ≠ [] := by
    rw [hks]
    intro h
    exact hkne (List.map_eq_nil.mp h)
  set nks := ks.map (fun t => (-t) % (ALPHABET_LENGTH : Int)) with hnks
  have hnksne : nks ≠ [] := by
    rw [hnks]
    intro h
    exact hksne (List.map_eq_nil.mp h)
  have hnlen : nks.length = ks.length := List.length_map _ _
  have hcs : clean_text s = s := clean_text_of_mem hs
  have hE : encode_vigenere s k = vigenere_apply s nks := by
    rw [encode_vigenere_of_ne hckne, hck, hcs]
  have hD : decrypt_vigenere s k = vigenere_apply s ks := by
    rw [decrypt_vigenere_of_ne hckne, hck, hcs]
  have hEmem : ∀ c ∈ vigenere_apply s nks, c ∈ ALPHABET :=
    fun c hc => vigenere_apply_mem_alphabet _ _ hnksne hc
  have hDmem : ∀ c ∈ vigenere_apply s ks, c ∈ ALPHABET :=
    fun c hc => vigenere_apply_mem_alphabet _ _ hksne hc
  have hg : ∀ j, j < ks.length → nks.getD j 0 = (-(ks.getD j 0)) % 33 := by
    intro j hj
    rw [hnks, getD_map_of_lt _ _ hj 0 0, alphabet_length_int]
  constructor
  · rw [hE, decrypt_vigenere_of_ne hckne, hck, clean_text_of_mem hEmem]
    apply vigenere_apply_vigenere_apply s hs nks ks hnksne (by rw [hnlen])
    intro c hcmem j hj
    rw [hnlen] at hj
    rw [hg j hj]
    exact shift_char_cancel_left hcmem _
  · rw [hD, encode_vigenere_of_ne hckne, hck, clean_text_of_mem hDmem]
    apply vigenere_apply_vigenere_apply s hs ks nks hksne hnlen
    intro c hcmem j hj
    rw [hg j hj]
    exact shift_char_cancel_right hcmem _

/-- Witness for C1 at the concrete sequence "абв" and key "б". -/
theorem vigenere_round_trip_witness :
    decrypt_vigenere (encode_vigenere ['а', 'б', 'в'] ['б']) ['б'] = ['а', 'б', 'в'] ∧
    encode_vigenere (decrypt_vigenere ['а', 'б', 'в'] ['б']) ['б'] = ['а', 'б', 'в'] :=
  vigenere_round_trip ['а', 'б', 'в'] ['б'] (by decide) (by decide) (by decide) (by decide)

/-- Claim C3 (index of coincidence definition): for every symbol sequence of
length `L`, `calculate_index_of_coincidence` returns `0` when `L < 2`, and
otherwise the sum over distinct symbols of `n·(n-1)` divided by `L·(L-1)`,
where both the numerator and the denominator are exact natural numbers and a
single division is performed. -/
theorem ic_definition (text : List Char) :
    calculate_index_of_coincidence text =
      if text.length < 2 then 0
      else ((∑ c ∈ text.toFinset, text.count c * (text.count c - 1) : ℕ) : ℚ)
        / ((text.length * (text.length - 1) : ℕ) : ℚ) := by
  by_cases h : text.length < 2
  · rw [if_pos h, ic_short text h]
  · rw [if_neg h, ic_eq_finset text (by omega)]

/-- Counterexample for C6 as stated: the one-element sequence "а" has every
symbol identical, yet its index of coincidence is `0`, not `1` (the
length-below-two rule wins). -/
theorem ic_identical_singleton_cex :
    (∀ x ∈ (['а'] : List Char), ∀ y ∈ (['а'] : List Char), x = y) ∧
    calculate_index_of_coincidence ['а'] ≠ 1 := by
  constructor
  · intro x hx y hy
    simp at hx hy
    rw [hx, hy]
  · rw [ic_short _ (by decide)]
    norm_num

/-- Claim C6, amended (IC bounds): for every non-empty sequence the IC lies in
`[0, 1]`; for every sequence of length at least 2 in which every symbol is
identical the IC is exactly 1; for every sequence of length below 2 the IC is
0. -/
theorem ic_bounds_amended (text : List Char) :
    (text ≠ [] → 0 ≤ calculate_index_of_coincidence text ∧
      calculate_index_of_coincidence text ≤ 1) ∧
    (2 ≤ text.length → (∀ x ∈ text, ∀ y ∈ text, x = y) →
      calculate_index_of_coincidence text = 1) ∧
    (text.length < 2 → calculate_index_of_coincidence text = 0) :=
  ⟨fun _ => ⟨ic_nonneg text, ic_le_one text⟩,
   fun h2 hid => ic_identical text h2 hid,
   fun h => ic_short text h⟩

/-- Witness for the amended C6 at the sequences "аа" and "б". -/
theorem ic_bounds_amended_witness :
    (0 ≤ calculate_index_of_coincidence ['а', 'а'] ∧
      calculate_index_of_coincidence ['а', 'а'] ≤ 1) ∧
    calculate_index_of_coincidence ['а', 'а'] = 1 ∧
    calculate_index_of_coincidence ['б'] = 0 :=
  ⟨(ic_bounds_amended ['а', 'а']).1 (by decide),
   (ic_bounds_amended ['а', 'а']).2.1 (by decide) (by decide),
   (ic_bounds_amended ['б']).2.2 (by decide)⟩

/-- Claim C7 (empty-key decode fallback): whenever the key contains no
alphabet symbols after case-folding and filtering (in particular for the
empty key), `decrypt_vigenere` returns its input argument unchanged. -/
theorem decrypt_empty_key_identity (text key : List Char) (h : clean_text key = []) :
    decrypt_vigenere text key = text :=
  decrypt_vigenere_of_empty h

/-- Witness for C7: the empty key and a key with no alphabet characters both
leave the (uncleaned) input untouched. -/
theorem decrypt_empty_key_identity_witness :
    decrypt_vigenere ['а', '!'] [] = ['а', '!'] ∧
    decrypt_vigenere ['а', '!'] ['q'] = ['а', '!'] :=
  ⟨decrypt_empty_key_identity _ _ (by decide),
   decrypt_empty_key_identity _ _ (by decide)⟩

/-- Claim C9 (decode output invariant): for every text and every key with at
least one alphabet symbol after case-folding and filtering, the output of
`decrypt_vigenere` has exactly the length of the cleaned input and all its
symbols belong to the alphabet. -/
theorem decrypt_output_invariant (text key : List Char) (h : clean_text key ≠ []) :
    (decrypt_vigenere text key).length = (clean_text text).length ∧
    ∀ c ∈ decrypt_vigenere text key, c ∈ ALPHABET := by
  have hne : (clean_text key).map (fun c => (ALPHABET.indexOf c : Int)) ≠ [] := by
    intro hcon
    exact h (List.map_eq_nil.mp hcon)
  rw [decrypt_vigenere_of_ne h]
  exact ⟨vigenere_apply_length _ _ hne,
    fun c hc => vigenere_apply_mem_alphabet _ _ hne hc⟩

/-- Witness for C9 at text "а?г" (one junk character) and key "б". -/
theorem decrypt_output_invariant_witness :
    (decrypt_vigenere ['а', '?', 'г'] ['б']).length = (clean_text ['а', '?', 'г']).length ∧
    ∀ c ∈ decrypt_vigenere ['а', '?', 'г'] ['б'], c ∈ ALPHABET :=
  decrypt_output_invariant ['а', '?', 'г'] ['б'] (by decide)

/-- Claim C5 (shift recovery contract): `find_shift` returns 0 on the empty
column, and otherwise returns `(index(most frequent) - index('о')) mod 33`
where the chosen symbol attains the maximal occurrence count (it is the head
of the count-descending frequency table). -/
theorem find_shift_contract (part : List Char) :
    (part = [] → find_shift part = 0) ∧
    (part ≠ [] → ∃ m, (count_letter_frequencies part).head? = some (m, part.count m) ∧
      m ∈ part ∧ (∀ c ∈ part, part.count c ≤ part.count m) ∧
      find_shift part = ((ALPHABET.indexOf m : Int) - (ALPHABET.indexOf 'о' : Int)) %
        (ALPHABET_LENGTH : Int)) := by
  constructor
  · intro h
    subst h
    rfl
  · intro h
    obtain ⟨m, n, rest, hfreq, hm, hn, hmax⟩ := freq_head_max h
    refine ⟨m, ?_, hm, fun c hc => hn ▸ hmax c hc, find_shift_of_head hfreq⟩
    rw [hfreq, hn]
    rfl

/-- Witness for C5 at the empty column and at the column "бба". -/
theorem find_shift_contract_witness :
    find_shift [] = 0 ∧
    ∃ m, (count_letter_frequencies ['б', 'б', 'а']).head?
        = some (m, List.count m ['б', 'б', 'а']) ∧
      m ∈ (['б', 'б', 'а'] : List Char) ∧
      (∀ c ∈ (['б', 'б', 'а'] : List Char),
        List.count c ['б', 'б', 'а'] ≤ List.count m ['б', 'б', 'а']) ∧
      find_shift ['б', 'б', 'а'] = ((ALPHABET.indexOf m : Int) -
        (ALPHABET.indexOf 'о' : Int)) % (ALPHABET_LENGTH : Int) :=
  ⟨(find_shift_contract []).1 rfl, (find_shift_contract ['б', 'б', 'а']).2 (by decide)⟩

/-- Counterexample for C2 as stated: on the ciphertext "аб" the estimator
returns key length 1, so `crack_vigenere` with the two supplied shifts
`[0, 1]` splits into one column and decodes to "аб", while decoding with the
key length implied by the shift count (2 columns, shifts `[0, 1]`) yields
"аа": the estimate, not the shift count, governs the column split. -/
theorem crack_vigenere_counterexample :
    (crack_vigenere ['а', 'б'] [0, 1]).1 = ['а', 'б'] ∧
    vigenere_apply (clean_text ['а', 'б']) [0, 1] = ['а', 'а'] ∧
    (crack_vigenere ['а', 'б'] [0, 1]).1 ≠ vigenere_apply (clean_text ['а', 'б']) [0, 1] := by
  have hclean : clean_text ['а', 'б'] = ['а', 'б'] := by decide
  have h1 : (crack_vigenere ['а', 'б'] [0, 1]).1 = ['а', 'б'] := by
    simp only [crack_vigenere, hclean, guess_ab]
    decide
  have h2 : vigenere_apply (clean_text ['а', 'б']) [0, 1] = ['а', 'а'] := by decide
  refine ⟨h1, h2, ?_⟩
  rw [h1, h2]
  decide

/-- Claim C2, amended: `crack_vigenere` always splits by the automatically
estimated key length, not by the shift count; whenever the number of supplied
shifts equals the estimated key length, it decodes using exactly the supplied
shift values (the automatically recovered shifts never override them) and
returns as key the alphabet rendering of the supplied shifts. -/
theorem crack_vigenere_uses_supplied_shifts (ct : List Char) (shifts : List Int)
    (h : shifts.length = guess_key_length (clean_text ct) 15) :
    crack_vigenere ct shifts
      = (vigenere_apply (clean_text ct) shifts, shifts.map py_at) := by
  simp only [crack_vigenere, vigenere_apply, ← h]

/-- Witness for the amended C2: one supplied shift on "аб" (whose estimated
key length is 1). -/
theorem crack_vigenere_uses_supplied_shifts_witness :
    crack_vigenere ['а', 'б'] [3]
      = (vigenere_apply (clean_text ['а', 'б']) [3], ([3] : List Int).map py_at) :=
  crack_vigenere_uses_supplied_shifts ['а', 'б'] [3]
    (by
      rw [show clean_text ['а', 'б'] = ['а', 'б'] from by decide, guess_ab]
      rfl)

/-- Claim C4 (key-length estimation): for every ciphertext and positive
`max_len`, `guess_key_length` returns a candidate in `[1, max_len]` whose
mean-IC distance to the expected IC (the quantity `mean_ic_diff`, computed
from the stride partition into `N` columns) is minimal over `1..max_len`,
and on ties the smallest such candidate is returned (strict `<` replaces the
running best). -/
theorem guess_key_length_spec (ct : List Char) (max_len : Nat) (h : 1 ≤ max_len) :
    (1 ≤ guess_key_length ct max_len ∧ guess_key_length ct max_len ≤ max_len) ∧
    (∀ N, 1 ≤ N → N ≤ max_len →
      mean_ic_diff ct (guess_key_length ct max_len) ≤ mean_ic_diff ct N ∧
      (mean_ic_diff ct N = mean_ic_diff ct (guess_key_length ct max_len) →
        guess_key_length ct max_len ≤ N)) := by
  obtain ⟨r, e, hfold, hg, he, hr1, hrmax, hall, hfirst⟩ := guess_key_length_inv ct max_len h
  rw [hg]
  refine ⟨⟨hr1, hrmax⟩, ?_⟩
  intro N h1 h2
  constructor
  · rw [← he]
    exact hall N h1 h2
  · intro heq
    by_contra hlt
    push_neg at hlt
    have hstrict := hfirst N h1 h2 hlt
    rw [heq, ← he] at hstrict
    exact lt_irrefl _ hstrict

/-- Witness for C4 at the ciphertext "аб" with `max_len = 2`. -/
theorem guess_key_length_spec_witness :
    (1 ≤ guess_key_length ['а', 'б'] 2 ∧ guess_key_length ['а', 'б'] 2 ≤ 2) ∧
    (∀ N, 1 ≤ N → N ≤ 2 →
      mean_ic_diff ['а', 'б'] (guess_key_length ['а', 'б'] 2) ≤ mean_ic_diff ['а', 'б'] N ∧
      (mean_ic_diff ['а', 'б'] N = mean_ic_diff ['а', 'б'] (guess_key_length ['а', 'б'] 2) →
        guess_key_length ['а', 'б'] 2 ≤ N)) :=
  guess_key_length_spec ['а', 'б'] 2 (by decide)

/-- Claim C8 (shift recovery exactness): for every non-empty column over the
alphabet whose strictly most frequent symbol is the hint letter 'о', and
every shift `s` in `[0, 33)`, rotating every symbol by `s` in the encryption
direction (which is `shift_text` with shift `-s`) and running `find_shift`
recovers exactly `s`. -/
theorem find_shift_recovers_shift (part : List Char) (s : Nat) (hne : part ≠ [])
    (halpha : ∀ c ∈ part, c ∈ ALPHABET)
    (hstrict : ∀ c ∈ part, c ≠ 'о' → part.count c < part.count 'о')
    (hs : s < ALPHABET_LENGTH) :
    find_shift (shift_text part (-(s : Int))) = (s : Int) := by
  rw [alphabet_length_eq] at hs
  have ho : 'о' ∈ part := by
    cases part with
    | nil => exact absurd rfl hne
    | cons x xs =>
      by_cases hx : x = 'о'
      · rw [← hx]
        simp
      · have h1 := hstrict x (by simp) hx
        have h2 : 0 < (x :: xs).count x := List.count_pos_iff_mem.mpr (by simp)
        exact List.count_pos_iff_mem.mp (by omega)
  have hne' : shift_text part (-(s : Int)) ≠ [] := by
    intro hcon
    unfold shift_text at hcon
    exact hne (List.map_eq_nil_iff.mp hcon)
  obtain ⟨M, n, rest, hfreq, hM, hn, hmax⟩ := freq_head_max hne'
  obtain ⟨c, hc, hcM⟩ : ∃ c ∈ part, shift_char c (-(s : Int)) = M := by
    unfold shift_text at hM
    exact List.mem_map.mp hM
  have hcase : c = 'о' := by
    by_contra hco
    have h1 := hstrict c hc hco
    have h2 : (shift_text part (-(s : Int))).count M = part.count c := by
      rw [← hcM]
      exact count_shift_text halpha (halpha c hc) _
    have h4 : shift_char 'о' (-(s : Int)) ∈ shift_text part (-(s : Int)) := by
      unfold shift_text
      exact List.mem_map_of_mem _ ho
    have h5 := hmax _ h4
    have h3 : (shift_text part (-(s : Int))).count (shift_char 'о' (-(s : Int)))
        = part.count 'о' := count_shift_text halpha (by decide) _
    omega
  rw [hcase] at hcM
  rw [find_shift_of_head hfreq, ← hcM, alphabet_length_int]
  have hidx := indexOf_shift_char 'о' (-(s : Int))
  have ho15 : (ALPHABET.indexOf 'о' : Int) = 15 := by decide
  omega

/-- Witness for C8: the column "ооа" shifted by 2 in the encryption
direction; `find_shift` recovers 2. -/
theorem find_shift_recovers_shift_witness :
    find_shift (shift_text ['о', 'о', 'а'] (-(2 : Int))) = (2 : Int) :=
  find_shift_recovers_shift ['о', 'о', 'а'] 2 (by decide) (by decide) (by decide) (by decide)

/-- Claim C10 (frequency tie-break): the frequency table is ordered with
counts descending and, among equal counts, by the position of the symbol's
first occurrence in the sequence; hence when a symbol `m` attains the maximal
count and occurs no later than every other symbol tied for that count,
`find_shift` deterministically selects `m`. -/
theorem freq_tie_break_first_occurrence (text : List Char) (m : Char) (hm : m ∈ text)
    (hmax : ∀ c ∈ text, text.count c ≤ text.count m)
    (hfirst : ∀ c ∈ text, text.count c = text.count m → text.indexOf m ≤ text.indexOf c) :
    (count_letter_frequencies text).Pairwise
      (fun a b => b.2 < a.2 ∨ (a.2 = b.2 ∧ text.indexOf a.1 < text.indexOf b.1)) ∧
    (count_letter_frequencies text).head? = some (m, text.count m) ∧
    find_shift text = ((ALPHABET.indexOf m : Int) - (ALPHABET.indexOf 'о' : Int)) %
      (ALPHABET_LENGTH : Int) := by
  obtain ⟨rest, hfreq⟩ := freq_head_of_first hm hmax hfirst
  refine ⟨count_letter_frequencies_pairwise text, ?_, find_shift_of_head hfreq⟩
  rw [hfreq]
  rfl

/-- Witness for C10: in "ба" the symbols 'б' and 'а' tie with one occurrence
each; the earlier symbol 'б' is selected. -/
theorem freq_tie_break_first_occurrence_witness :
    (count_letter_frequencies ['б', 'а']).Pairwise
      (fun a b => b.2 < a.2 ∨ (a.2 = b.2 ∧
        List.indexOf a.1 ['б', 'а'] < List.indexOf b.1 ['б', 'а'])) ∧
    (count_letter_frequencies ['б', 'а']).head? = some ('б', List.count 'б' ['б', 'а']) ∧
    find_shift ['б', 'а'] = ((ALPHABET.indexOf 'б' : Int) - (ALPHABET.indexOf 'о' : Int)) %
      (ALPHABET_LENGTH : Int) :=
  freq_tie_break_first_occurrence ['б', 'а'] 'б' (by decide) (by decide) (by decide)
